import Mathlib

/-!
# Verification of the glossary phrase-matching and PLS rating engines

Shallow embedding of the core of a medical-writing analysis service:

* `GlossaryService._generate_aliases`, `_load_and_index`,
  `find_and_define_phrases_in_text_enhanced`
  (`src/api/tools/glossary_service/glossary_service.py`),
* `PLSEvaluationTool._evaluate_metric` and the aggregate scoring loop of
  `PLSEvaluationTool.execute` (`src/api/tools/pls_evaluation_tool.py`),
* `GlossaryServiceSingleton.get_service` / `reset`
  (`src/api/core/glossary_singleton.py`).

Python strings are modelled as lists of Unicode code points (`List Nat`);
`str.lower`, `str.strip`, the regex classes `\w`, `\s` and the regex `.`
are modelled on their ASCII behaviour, which coincides with Python on every
input appearing below.  Python sets and dicts are modelled as duplicate-free
lists and association lists; the observable structure of the code does not
depend on set iteration order (each alias's index bucket only ever receives
appends in record order), so this is faithful.
-/

/-- A Python string: its list of Unicode code points. -/
abbrev PyStr := List Nat

/-- Code points of a Lean string literal, used to write concrete inputs. -/
def strLit (s : String) : PyStr := s.toList.map Char.toNat

/-- ASCII model of Python `str.lower` on one code point. -/
def lowerCp (n : Nat) : Nat := if 65 ≤ n ∧ n ≤ 90 then n + 32 else n

/-- `str.lower` over a whole string. -/
def lowerStr (s : PyStr) : PyStr := s.map lowerCp

/-- The regex class `\w` (ASCII): letters, digits, underscore. -/
def isWordCp (n : Nat) : Bool :=
  decide ((65 ≤ n ∧ n ≤ 90) ∨ (97 ≤ n ∧ n ≤ 122) ∨ (48 ≤ n ∧ n ≤ 57) ∨ n = 95)

/-- The regex class `\s` / `str.strip` whitespace (ASCII). -/
def isSpaceCp (n : Nat) : Bool :=
  decide (n = 32 ∨ n = 9 ∨ n = 10 ∨ n = 13 ∨ n = 11 ∨ n = 12)

/-- Python slice `s[a:b]` for `a ≤ b` (clamps at both ends, like Python). -/
def pySlice (s : PyStr) (a b : Nat) : PyStr := (s.drop a).take (b - a)

/-- Python `str.strip()`. -/
def pyStrip (s : PyStr) : PyStr :=
  ((s.dropWhile isSpaceCp).reverse.dropWhile isSpaceCp).reverse

/-- `true` iff the regex `.` can match every code point of `s` (no newline). -/
def noNl (s : PyStr) : Bool := s.all (fun c => decide (c ≠ 10))

/-- Try `f (n-1), f (n-2), …, f 0` and return the first `some`: the order in
which a greedy backtracking group retries ever shorter extents. -/
def scanDown (f : Nat → Option α) : Nat → Option α
  | 0 => none
  | n + 1 =>
    match f n with
    | some b => some b
    | none => scanDown f n

/-- Try `f 0, f 1, …, f (n-1)` and return the first `some`: the order in which
`re.search` tries match start positions. -/
def scanUp (f : Nat → Option α) : Nat → Option α
  | 0 => none
  | n + 1 =>
    match scanUp f n with
    | some b => some b
    | none => f n

/-- Group 2 of `re.search(r'(.+)\s\((.+)\)', s)` once group 1 ends just before
position `j` (so `s[j]` is the `\s` and `s[j+1]` the literal `(`): the longest
nonempty newline-free run starting at `j+2` that is followed by `)`.
Code point 41 is `)`. -/
def parenGroup2 (s : PyStr) (j : Nat) : Option PyStr :=
  scanDown (fun k =>
    if s.get? k = some 41 ∧ j + 3 ≤ k ∧ noNl (pySlice s (j + 2) k) = true then
      some (pySlice s (j + 2) k)
    else none) s.length

/-- One anchored attempt of `re.search(r'(.+)\s\((.+)\)', s)` at start `p`:
group 1 is greedy, so the engine tries the latest `j` first with `s[j]`
whitespace, `s[j+1] = '('` (code point 40) and `s[p:j]` nonempty without
newline, and for each such `j` asks `parenGroup2` for group 2. -/
def parenAt (s : PyStr) (p : Nat) : Option (PyStr × PyStr) :=
  scanDown (fun j =>
    if s.get? (j + 1) = some 40 ∧ (s.get? j).any isSpaceCp = true ∧ p + 1 ≤ j ∧
        noNl (pySlice s p j) = true then
      match parenGroup2 s j with
      | some g2 => some (pySlice s p j, g2)
      | none => none
    else none) s.length

/-- `re.search(r'(.+)\s\((.+)\)', s)`: leftmost start position wins, then the
greedy group semantics of `parenAt`. -/
def searchParen (s : PyStr) : Option (PyStr × PyStr) :=
  scanUp (fun p => parenAt s p) s.length

/-- Append `x` to `l` if absent: how one element enters a Python set that is
modelled as a duplicate-free list. -/
def insertIfAbsent [DecidableEq α] (x : α) (l : List α) : List α :=
  if x ∈ l then l else l ++ [x]

/-- `GlossaryService._generate_aliases`: the lowercased term, plus, when the
regex `(.+)\s\((.+)\)` matches the lowercased term, the stripped groups.
The Python set is modelled as a duplicate-free list. -/
def generate_aliases (term : PyStr) : List PyStr :=
  let lower_term := lowerStr term
  match searchParen lower_term with
  | some (g1, g2) =>
      insertIfAbsent (pyStrip g2) (insertIfAbsent (pyStrip g1) [lower_term])
  | none => [lower_term]

/-- One glossary definition record as stored in the phrase index
(`definition_record` in `_load_and_index`). -/
structure DefRecord where
  main_term : PyStr
  plain_alternative : PyStr
  source : PyStr
deriving DecidableEq

/-- One raw record of a source collection: the fields `_load_and_index` reads. -/
structure RawEntry where
  term : PyStr
  plain_alternative : PyStr
deriving DecidableEq

/-- The service state built by `_load_and_index`: the `defaultdict(list)`
`phrase_index` as an association list and the set `all_known_phrases` as a
duplicate-free list in insertion order. -/
structure GlossaryIndex where
  phrase_index : List (PyStr × List DefRecord)
  all_known_phrases : List PyStr
deriving DecidableEq

/-- `self.phrase_index[alias].append(record)` on the `defaultdict(list)`. -/
def indexAppend (pi : List (PyStr × List DefRecord)) (k : PyStr) (d : DefRecord) :
    List (PyStr × List DefRecord) :=
  match pi with
  | [] => [(k, [d])]
  | (k', v) :: rest =>
    if k' = k then (k', v ++ [d]) :: rest else (k', v) :: indexAppend rest k d

/-- Reading `self.phrase_index[alias]`: the stored list, or `[]` for an absent
key (the `defaultdict` default). -/
def indexLookup (pi : List (PyStr × List DefRecord)) (k : PyStr) : List DefRecord :=
  match pi with
  | [] => []
  | (k', v) :: rest => if k' = k then v else indexLookup rest k

/-- The body of `_load_and_index` for one record: skip empty terms, build the
definition record, index it under every alias, add the aliases to
`all_known_phrases`. -/
def addEntry (g : GlossaryIndex) (src : PyStr) (e : RawEntry) : GlossaryIndex :=
  if e.term = [] then g
  else
    let d : DefRecord := ⟨e.term, e.plain_alternative, src⟩
    let aliases := generate_aliases e.term
    { phrase_index := aliases.foldl (fun pi a => indexAppend pi a d) g.phrase_index
      all_known_phrases := aliases.foldl (fun l a => insertIfAbsent a l) g.all_known_phrases }

/-- `_load_and_index` over named source collections (file I/O and JSON parsing
happen outside the embedded core; the externally fixed collection order is the
list order). -/
def load_and_index (cols : List (PyStr × List RawEntry)) : GlossaryIndex :=
  cols.foldl (fun g c => c.2.foldl (fun g' e => addEntry g' c.1 e) g) ⟨[], []⟩

/-- `s[i : i + pat.length] == pat`: the literal occurrence test. -/
def matchesAt (text pat : PyStr) (i : Nat) : Bool :=
  pySlice text i (i + pat.length) == pat

/-- Whether the code point at position `i` (if any) is a `\w` character. -/
def wordAt (text : PyStr) (i : Nat) : Bool :=
  match text.get? i with
  | some c => isWordCp c
  | none => false

/-- The regex word-boundary assertion `\b` at position `i`. -/
def isBoundary (text : PyStr) (i : Nat) : Bool :=
  (if i = 0 then false else wordAt text (i - 1)) != wordAt text i

/-- A whole-word occurrence of `pat` at `i`: the regex
`r'\b' + re.escape(pat) + r'\b'` matching there. -/
def boundMatch (text pat : PyStr) (i : Nat) : Bool :=
  matchesAt text pat i && isBoundary text i && isBoundary text (i + pat.length)

/-- The scan loop of `re.finditer`: from position `i`, take the leftmost
whole-word occurrence, then continue after it (advancing by one position on a
zero-width match, as Python does).  `fuel` bounds the recursion; `text.length
+ 1 - i` steps always suffice. -/
def findFrom (text pat : PyStr) : Nat → Nat → List (Nat × Nat)
  | _, 0 => []
  | i, fuel + 1 =>
    if i ≤ text.length then
      if boundMatch text pat i then
        (i, i + pat.length) :: findFrom text pat (i + max pat.length 1) fuel
      else
        findFrom text pat (i + 1) fuel
    else []

/-- `re.finditer(r'\b' + re.escape(pat) + r'\b', text)` as the list of
half-open spans. -/
def finditer (text pat : PyStr) : List (Nat × Nat) :=
  findFrom text pat 0 (text.length + 1)

/-- One match span as reported by the enhanced matcher. -/
structure MatchInfo where
  alias_found : PyStr
  location_start : Nat
  location_end : Nat
deriving DecidableEq

/-- One entry of `found_terms`, grouped by main term. -/
structure FoundTerm where
  main_term : PyStr
  definitions : List (PyStr × PyStr)
  matches_in_text : List MatchInfo
deriving DecidableEq

/-- The overlap test of the enhanced matcher:
`start_pos < existing_end and end_pos > existing_start` for any accepted range. -/
def overlapsAny (ranges : List (Nat × Nat)) (s e : Nat) : Bool :=
  ranges.any (fun r => decide (s < r.2) && decide (e > r.1))

/-- Merging one definition and one match span into a `FoundTerm`
(both deduplicated by value, appended at the end, as the Python lists are). -/
def addToFound (ft : FoundTerm) (d : DefRecord) (mi : MatchInfo) : FoundTerm :=
  { ft with
    definitions := insertIfAbsent (d.plain_alternative, d.source) ft.definitions
    matches_in_text := insertIfAbsent mi ft.matches_in_text }

/-- The `found_terms` dict update for one definition record: create the
`main_term` entry on first sight (dict insertion order = append), then merge. -/
def updateFound (found : List (PyStr × FoundTerm)) (d : DefRecord) (mi : MatchInfo) :
    List (PyStr × FoundTerm) :=
  match found with
  | [] => [(d.main_term, addToFound ⟨d.main_term, [], []⟩ d mi)]
  | (k, ft) :: rest =>
    if k = d.main_term then (k, addToFound ft d mi) :: rest
    else (k, ft) :: updateFound rest d mi

/-- The mutable state of the enhanced matcher's scan: the `found_terms` dict
and the `matched_ranges` list. -/
structure ScanState where
  found : List (PyStr × FoundTerm)
  ranges : List (Nat × Nat)

/-- The body of the inner `for match in re.finditer(...)` loop: discard an
occurrence overlapping any accepted range, otherwise merge every definition of
the phrase and record the range. -/
def acceptMatch (pi : List (PyStr × List DefRecord)) (origText phrase : PyStr)
    (st : ScanState) (occ : Nat × Nat) : ScanState :=
  if overlapsAny st.ranges occ.1 occ.2 then st
  else
    let mi : MatchInfo := ⟨pySlice origText occ.1 occ.2, occ.1, occ.2⟩
    { found := (indexLookup pi phrase).foldl (fun f d => updateFound f d mi) st.found
      ranges := st.ranges ++ [(occ.1, occ.2)] }

/-- The body of the outer `for phrase in sorted_phrases` loop. -/
def scanPhrase (pi : List (PyStr × List DefRecord)) (lowerText origText : PyStr)
    (st : ScanState) (phrase : PyStr) : ScanState :=
  (finditer lowerText phrase).foldl (acceptMatch pi origText phrase) st

/-- Stable insertion before the first strictly shorter element: one step of
`sorted(phrases, key=len, reverse=True)`. -/
def insertByLen (p : PyStr) : List PyStr → List PyStr
  | [] => [p]
  | q :: qs => if q.length < p.length then p :: q :: qs else q :: insertByLen p qs

/-- `sorted(list(self.all_known_phrases), key=len, reverse=True)`.  Among
phrases of equal length Python's order is the unspecified set iteration order;
this embedding fixes one deterministic representative (no claim below depends
on an equal-length tie). -/
def sortLenDesc (l : List PyStr) : List PyStr :=
  l.foldr insertByLen []

/-- The value returned by the enhanced matcher: the `analysis_summary` fields
and the `found_terms` list. -/
structure EnhancedResult where
  total_unique_phrases_found : Nat
  text_character_length : Nat
  found_terms : List FoundTerm
deriving DecidableEq

/-- `GlossaryService.find_and_define_phrases_in_text_enhanced`. -/
def find_and_define_phrases_in_text_enhanced (g : GlossaryIndex) (text : PyStr) : EnhancedResult :=
  let lowerText := lowerStr text
  let phrases := sortLenDesc g.all_known_phrases
  let st := phrases.foldl (scanPhrase g.phrase_index lowerText text) ⟨[], []⟩
  ⟨st.found.length, text.length, st.found.map (·.2)⟩

/-- The `direction` field of a threshold entry. -/
inductive Direction
  | higher_better
  | lower_better
deriving DecidableEq, BEq

/-- The percentile buckets `_evaluate_metric` can assign. -/
inductive Rating
  | P75
  | P50
  | P25
  | P10
  | BELOW_P10
  | P90
  | BEYOND_P90
deriving DecidableEq, BEq

/-- The four numeric bounds of one threshold entry.  Metric values and bounds
are modelled as rationals; every comparison the claims exercise is exact in
binary floating point, so the model agrees with the Python floats. -/
structure ThresholdSet where
  excellent : ℚ
  good : ℚ
  acceptable : ℚ
  poor : ℚ
deriving DecidableEq

/-- One entry of the static threshold table. -/
structure ThresholdEntry where
  bounds : ThresholdSet
  direction : Direction
deriving DecidableEq

/-- The bucket chosen by `PLSEvaluationTool._evaluate_metric`. -/
def metricRating (value : ℚ) (t : ThresholdSet) (dir : Direction) : Rating :=
  match dir with
  | .higher_better =>
    if value ≥ t.excellent then .P75
    else if value ≥ t.good then .P50
    else if value ≥ t.acceptable then .P25
    else if value ≥ t.poor then .P10
    else .BELOW_P10
  | .lower_better =>
    if value ≤ t.excellent then .P25
    else if value ≤ t.good then .P50
    else if value ≤ t.acceptable then .P75
    else if value ≤ t.poor then .P90
    else .BEYOND_P90

/-- The feedback branch of `_evaluate_metric`: feedback exists exactly for the
deviating buckets and points at the `good` (median) bound; the f-string is
modelled by the numeric target it embeds. -/
def metricFeedback (t : ThresholdSet) (dir : Direction) (r : Rating) : Option ℚ :=
  match dir with
  | .higher_better => if r = .P10 ∨ r = .BELOW_P10 then some t.good else none
  | .lower_better => if r = .P90 ∨ r = .BEYOND_P90 then some t.good else none

/-- The record `_evaluate_metric` returns. -/
structure MetricEvaluation where
  value : ℚ
  rating : Rating
  direction : Direction
  feedback : Option ℚ
deriving DecidableEq

/-- `PLSEvaluationTool._evaluate_metric`. -/
def evaluate_metric (value : ℚ) (t : ThresholdSet) (dir : Direction) : MetricEvaluation :=
  let r := metricRating value t dir
  ⟨value, r, dir, metricFeedback t dir r⟩

/-- One scored feature as the aggregation loop of `execute` sees it: the
feature's value if the linguistic analyzer produced one, and its threshold
entry if the table has one.  The loop skips a feature unless both exist. -/
structure FeatureInput where
  value : Option ℚ
  entry : Option ThresholdEntry
deriving DecidableEq

/-- The ratings actually tallied into `rating_counts` by the loop of
`execute`: one per feature that has both a value and a threshold entry. -/
def evaluatedRatings (fs : List FeatureInput) : List Rating :=
  fs.filterMap (fun f =>
    match f.value, f.entry with
    | some v, some t => some (metricRating v t.bounds t.direction)
    | _, _ => none)

/-- The directions paired with those ratings (used to state the spec's
direction-aware reading of the aggregate score). -/
def evaluatedRatingsDir (fs : List FeatureInput) : List (Rating × Direction) :=
  fs.filterMap (fun f =>
    match f.value, f.entry with
    | some v, some t => some (metricRating v t.bounds t.direction, t.direction)
    | _, _ => none)

/-- `best_quartile_rate` exactly as `execute` computes it:
`(rating_counts["P25"] + rating_counts["P75"]) / total_evaluated * 100`,
with `0` when nothing was evaluated. -/
def best_quartile_rate (fs : List FeatureInput) : ℚ :=
  let rs := evaluatedRatings fs
  if rs.length = 0 then 0
  else ((rs.count .P25 + rs.count .P75 : ℚ) / rs.length) * 100

/-- Modelled from the spec's words, for comparison with the code: a feature
counts toward the best quartile only when its bucket is the favourable one for
its own direction (`P75` under `higher_better`, `P25` under `lower_better`). -/
def best_quartile_rate_spec (fs : List FeatureInput) : ℚ :=
  let rs := evaluatedRatingsDir fs
  if rs.length = 0 then 0
  else ((rs.countP (fun rd =>
      match rd.2 with
      | .higher_better => rd.1 == .P75
      | .lower_better => rd.1 == .P25) : ℚ) / rs.length) * 100

/-- The class-level state of `GlossaryServiceSingleton`: `_service` and the
flag `_initialized` (the service payload is abstract). -/
structure SingState (α : Type) where
  service : Option α
  initDone : Bool
deriving DecidableEq

/-- The outcome of one attempted `GlossaryService(...)` construction: the
constructor either returns a service or raises. -/
inductive BuildOutcome (α : Type)
  | ok (s : α)
  | raised
deriving DecidableEq

/-- `GlossaryServiceSingleton.get_service`: when not yet initialized, attempt
the build `b`; on success store the service, on an exception store `None`; in
both cases set `_initialized = True`.  Returns the new state and `_service`.
When already initialized the build is not attempted (the result does not
depend on `b`) and the state is unchanged. -/
def get_service (st : SingState α) (b : BuildOutcome α) : SingState α × Option α :=
  if st.initDone then (st, st.service)
  else
    match b with
    | .ok s => (⟨some s, true⟩, some s)
    | .raised => (⟨none, true⟩, none)

/-- `GlossaryServiceSingleton.reset`: clear the service and the flag. -/
def reset (_st : SingState α) : SingState α := ⟨none, false⟩

/-- An index holding exactly the glossary terms `"disease"` and
`"chronic disease"` (plain alternatives chosen arbitrarily). -/
def c2Index : GlossaryIndex :=
  load_and_index [(strLit ("g"),
    [⟨strLit ("disease"), strLit ("illness")⟩,
     ⟨strLit ("chronic disease"), strLit ("long illness")⟩])]

/-- An index built from the single (legal) glossary term `"  (x)"`: its
parenthesis extraction yields the empty string as an alias, because group 1
of the regex is the one-space string and `strip` erases it. -/
def c3BadIndex : GlossaryIndex :=
  load_and_index [(strLit ("g"), [⟨strLit ("  (x)"), strLit ("y")⟩])]

/-- An index holding the single glossary term `"disease"`. -/
def diseaseIndex : GlossaryIndex :=
  load_and_index [(strLit ("g"), [⟨strLit ("disease"), strLit ("illness")⟩])]

/-- One evaluated feature: direction `higher_better`, thresholds
`{excellent: 70, good: 50, acceptable: 30, poor: 10}`, value `35`
(so its bucket is `P25`, the 25th percentile — not the best quartile for a
`higher_better` feature). -/
def c1Input : List FeatureInput :=
  [⟨some 35, some ⟨⟨70, 50, 30, 10⟩, .higher_better⟩⟩]

/-! ## Basic lemmas about the embedded primitives -/

theorem mem_insertIfAbsent_self [DecidableEq α] (x : α) (l : List α) :
    x ∈ insertIfAbsent x l := by
  unfold insertIfAbsent
  split
  · assumption
  · simp

theorem mem_insertIfAbsent_of_mem [DecidableEq α] {x : α} (y : α) {l : List α}
    (h : x ∈ l) : x ∈ insertIfAbsent y l := by
  unfold insertIfAbsent
  split
  · exact h
  · exact List.mem_append_left _ h

theorem eq_or_mem_of_mem_insertIfAbsent [DecidableEq α] {x y : α} {l : List α}
    (h : x ∈ insertIfAbsent y l) : x = y ∨ x ∈ l := by
  unfold insertIfAbsent at h
  split at h
  · exact Or.inr h
  · rcases List.mem_append.1 h with h' | h'
    · exact Or.inr h'
    · exact Or.inl (List.mem_singleton.1 h')

theorem scanUp_eq_of_first {f : Nat → Option α} {b : α} (hn : 0 < n)
    (h0 : f 0 = some b) : scanUp f n = some b := by
  induction n with
  | zero => omega
  | succ m ih =>
    unfold scanUp
    rcases Nat.eq_zero_or_pos m with hm | hm
    · subst hm
      simp [scanUp, h0]
    · rw [ih hm]

theorem scanDown_eq_of_peak {f : Nat → Option α} {b : α} {j n : Nat} (hj : j < n)
    (hfj : f j = some b) (habove : ∀ j', j < j' → j' < n → f j' = none) :
    scanDown f n = some b := by
  induction n with
  | zero => omega
  | succ m ih =>
    unfold scanDown
    rcases Nat.lt_or_ge j m with hm | hm
    · rw [habove m hm (Nat.lt_succ_self m)]
      exact ih hm (fun j' h1 h2 => habove j' h1 (Nat.lt_succ_of_lt h2))
    · have : j = m := by omega
      subst this
      rw [hfj]

theorem exists_of_scanUp_eq_some {f : Nat → Option α} {b : α} {n : Nat}
    (h : scanUp f n = some b) : ∃ i, i < n ∧ f i = some b := by
  induction n with
  | zero => simp [scanUp] at h
  | succ m ih =>
    unfold scanUp at h
    cases hrec : scanUp f m with
    | some c =>
      rw [hrec] at h
      have h' : some c = some b := h
      obtain ⟨i, hi, hfi⟩ := ih (hrec.trans h')
      exact ⟨i, Nat.lt_succ_of_lt hi, hfi⟩
    | none =>
      rw [hrec] at h
      exact ⟨m, Nat.lt_succ_self m, h⟩

theorem exists_of_scanDown_eq_some {f : Nat → Option α} {b : α} {n : Nat}
    (h : scanDown f n = some b) : ∃ i, i < n ∧ f i = some b := by
  induction n with
  | zero => simp [scanDown] at h
  | succ m ih =>
    unfold scanDown at h
    cases hm : f m with
    | some c =>
      rw [hm] at h
      have h' : some c = some b := h
      exact ⟨m, Nat.lt_succ_self m, hm.trans h'⟩
    | none =>
      rw [hm] at h
      obtain ⟨i, hi, hfi⟩ := ih h
      exact ⟨i, Nat.lt_succ_of_lt hi, hfi⟩

theorem foldl_preserves {P : β → Prop} {f : β → α → β} :
    ∀ (l : List α) (b : β), P b → (∀ b' a, a ∈ l → P b' → P (f b' a)) →
      P (l.foldl f b)
  | [], b, hb, _ => hb
  | a :: l, b, hb, hstep =>
    foldl_preserves l (f b a) (hstep b a (List.mem_cons_self a l) hb)
      (fun b' a' ha' hb' => hstep b' a' (List.mem_cons_of_mem a ha') hb')

theorem foldl_fixed {f : β → α → β} :
    ∀ {l : List α} {b : β}, (∀ b' a, a ∈ l → f b' a = b') → l.foldl f b = b := by
  intro l
  induction l with
  | nil => intro b _; rfl
  | cons a l ih =>
    intro b h
    rw [List.foldl_cons, h b a (List.mem_cons_self a l)]
    exact ih (fun b' a' ha' => h b' a' (List.mem_cons_of_mem a ha'))

theorem span_of_mem_findFrom {text pat : PyStr} :
    ∀ {fuel i s e}, (s, e) ∈ findFrom text pat i fuel →
      e = s + pat.length ∧ boundMatch text pat s = true := by
  intro fuel
  induction fuel with
  | zero => intro i s e h; simp [findFrom] at h
  | succ m ih =>
    intro i s e h
    unfold findFrom at h
    split at h
    · split at h
      · rcases List.mem_cons.1 h with h' | h'
        · rw [Prod.mk.injEq] at h'
          obtain ⟨hs, he⟩ := h'
          subst hs
          exact ⟨he, by assumption⟩
        · exact ih h'
      · exact ih h
    · simp at h

theorem findFrom_eq_nil {text pat : PyStr}
    (h : ∀ i, boundMatch text pat i = false) :
    ∀ fuel i, findFrom text pat i fuel = [] := by
  intro fuel
  induction fuel with
  | zero => intro i; rfl
  | succ m ih =>
    intro i
    unfold findFrom
    split
    · rw [h i]
      exact ih (i + 1)
    · rfl

theorem finditer_eq_nil {text pat : PyStr}
    (h : ∀ i, boundMatch text pat i = false) : finditer text pat = [] :=
  findFrom_eq_nil h _ 0

theorem get?_of_matchesAt {text pat : PyStr} {i : Nat}
    (h : matchesAt text pat i = true) :
    ∀ j, j < pat.length → text.get? (i + j) = pat.get? j := by
  intro j hj
  unfold matchesAt pySlice at h
  have hsl : (text.drop i).take (i + pat.length - i) = pat := eq_of_beq h
  rw [Nat.add_sub_cancel_left] at hsl
  have hj' : pat.get? j = ((text.drop i).take pat.length).get? j := by rw [hsl]
  rw [hj', List.get?_eq_getElem?, List.get?_eq_getElem?,
    List.getElem?_take_of_lt hj, List.getElem?_drop]

theorem length_le_of_matchesAt {text pat : PyStr} {i : Nat} (hne : pat ≠ [])
    (h : matchesAt text pat i = true) : i + pat.length ≤ text.length := by
  unfold matchesAt pySlice at h
  have hsl : (text.drop i).take (i + pat.length - i) = pat := eq_of_beq h
  rw [Nat.add_sub_cancel_left] at hsl
  have hlen : ((text.drop i).take pat.length).length = pat.length := by rw [hsl]
  have hpos : 0 < pat.length := List.length_pos.mpr hne
  rw [List.length_take, List.length_drop] at hlen
  omega

theorem mem_of_mem_insertByLen {x y : PyStr} :
    ∀ {l : List PyStr}, x ∈ insertByLen y l → x = y ∨ x ∈ l := by
  intro l
  induction l with
  | nil => intro h; simpa [insertByLen] using h
  | cons q qs ih =>
    intro h
    unfold insertByLen at h
    split at h
    · rcases List.mem_cons.1 h with h' | h'
      · exact Or.inl h'
      · exact Or.inr h'
    · rcases List.mem_cons.1 h with h' | h'
      · exact Or.inr (h' ▸ List.mem_cons_self q qs)
      · rcases ih h' with h'' | h''
        · exact Or.inl h''
        · exact Or.inr (List.mem_cons_of_mem q h'')

theorem mem_of_mem_sortLenDesc {x : PyStr} :
    ∀ {l : List PyStr}, x ∈ sortLenDesc l → x ∈ l := by
  intro l
  induction l with
  | nil => intro h; simpa [sortLenDesc] using h
  | cons q qs ih =>
    intro h
    unfold sortLenDesc at h
    rw [List.foldr_cons] at h
    rcases mem_of_mem_insertByLen h with h' | h'
    · exact h' ▸ List.mem_cons_self q qs
    · exact List.mem_cons_of_mem q (ih h')

theorem boundMatch_nil_text (pat : PyStr) : boundMatch [] pat 0 = false := by
  cases pat <;> rfl

theorem finditer_nil_text (pat : PyStr) : finditer [] pat = [] := by
  show findFrom [] pat 0 1 = []
  unfold findFrom
  rw [boundMatch_nil_text]
  rfl

/-! ## Claim theorems -/

/-- C8: for every index, the enhanced matcher applied to the empty string
returns `found_terms = []`, `total_unique_phrases_found = 0` and
`text_character_length = 0` (and, being a total function, does not raise). -/
theorem find_enhanced_empty_text (g : GlossaryIndex) :
    find_and_define_phrases_in_text_enhanced g [] =
      ⟨0, 0, []⟩ := by
  have hscan : ∀ (st : ScanState) (p : PyStr),
      scanPhrase g.phrase_index (lowerStr []) [] st p = st := by
    intro st p
    unfold scanPhrase
    rw [show lowerStr ([] : PyStr) = [] from rfl, finditer_nil_text]
    rfl
  simp only [find_and_define_phrases_in_text_enhanced]
  rw [foldl_fixed (fun st p _ => hscan st p)]
  rfl

/-- Witness for C8 at a concrete index. -/
theorem find_enhanced_empty_text_witness :
    find_and_define_phrases_in_text_enhanced c2Index [] = ⟨0, 0, []⟩ :=
  find_enhanced_empty_text c2Index

/-- C2: on `"This chronic disease is not just any disease."` with glossary
terms `"disease"` and `"chronic disease"`, the matcher returns exactly one
span for `"chronic disease"` (positions 5–20), no separate span for the
`"disease"` embedded in it (positions 13–20), and one span for the second,
non-overlapping `"disease"` (positions 37–44). -/
theorem chronic_disease_longest_match :
    find_and_define_phrases_in_text_enhanced c2Index
        (strLit ("This chronic disease is not just any disease.")) =
      ⟨2, 45,
       [⟨strLit ("chronic disease"), [(strLit ("long illness"), strLit ("g"))],
         [⟨strLit ("chronic disease"), 5, 20⟩]⟩,
        ⟨strLit ("disease"), [(strLit ("illness"), strLit ("g"))],
          [⟨strLit ("disease"), 37, 44⟩]⟩]⟩ := by
  decide

/-- C1 (divergence of the code from the spec's direction-aware reading):
a single evaluated `higher_better` feature whose bucket is `P25` — the 25th
percentile, not the best quartile for its direction — still yields
`best_quartile_rate = 100` in the code, because `execute` sums
`rating_counts["P25"] + rating_counts["P75"]` over all features regardless
of each feature's direction; the spec's direction-aware count gives 0. -/
theorem best_quartile_rate_direction_bug :
    evaluatedRatings c1Input = [.P25] ∧
    best_quartile_rate c1Input = 100 ∧
    best_quartile_rate_spec c1Input = 0 := by
  have h1 : evaluatedRatings c1Input = [.P25] := by decide
  have h2 : evaluatedRatingsDir c1Input = [(.P25, .higher_better)] := by decide
  refine ⟨h1, ?_, ?_⟩
  · unfold best_quartile_rate
    rw [h1]
    have hc1 : List.count Rating.P25 [Rating.P25] = 1 := rfl
    have hc2 : List.count Rating.P75 [Rating.P25] = 0 := rfl
    simp only [hc1, hc2]
    norm_num
  · unfold best_quartile_rate_spec
    rw [h2]
    have hc : List.countP
        (fun rd =>
          match rd.2 with
          | Direction.higher_better => rd.1 == Rating.P75
          | Direction.lower_better => rd.1 == Rating.P25)
        [((Rating.P25 : Rating), (Direction.higher_better : Direction))] = 0 := rfl
    simp only [hc]
    norm_num

/-- C4: for `higher_better` with monotone thresholds the rating is the
descending bucket chain of the claim, and the five concrete values
80, 50, 35, 15, 5 under thresholds {70, 50, 30, 10} rate
P75, P50, P25, P10, BELOW_P10 respectively. -/
theorem evaluate_metric_higher_better_buckets :
    (∀ (v : ℚ) (t : ThresholdSet),
        t.poor ≤ t.acceptable → t.acceptable ≤ t.good → t.good ≤ t.excellent →
        (evaluate_metric v t .higher_better).rating =
          (if v ≥ t.excellent then Rating.P75
           else if v ≥ t.good then Rating.P50
           else if v ≥ t.acceptable then Rating.P25
           else if v ≥ t.poor then Rating.P10
           else Rating.BELOW_P10)) ∧
    (evaluate_metric 80 ⟨70, 50, 30, 10⟩ .higher_better).rating = .P75 ∧
    (evaluate_metric 50 ⟨70, 50, 30, 10⟩ .higher_better).rating = .P50 ∧
    (evaluate_metric 35 ⟨70, 50, 30, 10⟩ .higher_better).rating = .P25 ∧
    (evaluate_metric 15 ⟨70, 50, 30, 10⟩ .higher_better).rating = .P10 ∧
    (evaluate_metric 5 ⟨70, 50, 30, 10⟩ .higher_better).rating = .BELOW_P10 :=
  ⟨fun _ _ _ _ _ => rfl, by decide, by decide, by decide, by decide, by decide⟩

/-- Witness for C4: the general bucket chain applied at value 80 with the
concrete monotone thresholds. -/
theorem evaluate_metric_higher_better_buckets_witness :
    (evaluate_metric 80 ⟨70, 50, 30, 10⟩ .higher_better).rating =
      (if (80 : ℚ) ≥ 70 then Rating.P75
       else if (80 : ℚ) ≥ 50 then Rating.P50
       else if (80 : ℚ) ≥ 30 then Rating.P25
       else if (80 : ℚ) ≥ 10 then Rating.P10
       else Rating.BELOW_P10) :=
  evaluate_metric_higher_better_buckets.1 80 ⟨70, 50, 30, 10⟩
    (by norm_num) (by norm_num) (by norm_num)

/-- C10: a failed first construction returns `None` and latches
`_initialized`; once latched, every later call returns the stored `None`
without attempting the build (the result and state do not depend on the build
outcome); `reset` clears the latch so that a later call constructs again. -/
theorem get_service_failure_latched :
    (∀ (α : Type), get_service (⟨none, false⟩ : SingState α) .raised =
        (⟨none, true⟩, none)) ∧
    (∀ (α : Type) (st : SingState α) (b : BuildOutcome α),
        st.initDone = true → get_service st b = (st, st.service)) ∧
    (∀ (α : Type) (st : SingState α) (s : α),
        get_service (reset st) (.ok s) = (⟨some s, true⟩, some s)) := by
  refine ⟨fun α => rfl, ?_, fun α st s => rfl⟩
  intro α st b h
  simp [get_service, h]

/-- Witness for C10: over `Nat`, the failure latches, a later call returns
`None` even though its build would succeed, and after `reset` the build runs. -/
theorem get_service_failure_latched_witness :
    get_service (⟨none, false⟩ : SingState Nat) .raised = (⟨none, true⟩, none) ∧
    get_service (⟨none, true⟩ : SingState Nat) (.ok 7) = (⟨none, true⟩, none) ∧
    get_service (reset (⟨none, true⟩ : SingState Nat)) (.ok 7) =
      (⟨some 7, true⟩, some 7) :=
  ⟨get_service_failure_latched.1 Nat,
   get_service_failure_latched.2.1 Nat ⟨none, true⟩ (.ok 7) rfl,
   get_service_failure_latched.2.2 Nat ⟨none, true⟩ 7⟩

/-- C5: whole-word matching only.  If every occurrence of `"disease"` in the
lowercased text has a word character immediately before it or immediately
after it (i.e. `"disease"` occurs only as a proper substring of longer words,
as in `"diseased"`), then the matcher over an index holding the term
`"disease"` reports nothing. -/
theorem word_boundary_whole_word (text : PyStr)
    (h : ∀ i ∈ List.range text.length,
        matchesAt (lowerStr text) (strLit ("disease")) i = true →
        (0 < i ∧ wordAt (lowerStr text) (i - 1) = true) ∨
          wordAt (lowerStr text) (i + 7) = true) :
    (find_and_define_phrases_in_text_enhanced diseaseIndex text).found_terms = [] := by
  have h7 : (strLit ("disease")).length = 7 := rfl
  have hb : ∀ i, boundMatch (lowerStr text) (strLit ("disease")) i = false := by
    intro i
    cases hm : matchesAt (lowerStr text) (strLit ("disease")) i with
    | false => simp [boundMatch, hm]
    | true =>
      have hlen : i + 7 ≤ (lowerStr text).length := by
        have hle := length_le_of_matchesAt (by decide) hm
        rwa [h7] at hle
      have hrange : i ∈ List.range text.length := by
        have hl : (lowerStr text).length = text.length := by simp [lowerStr]
        exact List.mem_range.mpr (by omega)
      have hwi : wordAt (lowerStr text) i = true := by
        have hg := get?_of_matchesAt hm 0 (by decide)
        rw [Nat.add_zero] at hg
        unfold wordAt
        rw [hg]
        rfl
      have hw6 : wordAt (lowerStr text) (i + 6) = true := by
        have hg := get?_of_matchesAt hm 6 (by decide)
        unfold wordAt
        rw [hg]
        rfl
      rcases h i hrange hm with ⟨hi0, hw⟩ | hw7
      · have hbnd : isBoundary (lowerStr text) i = false := by
          unfold isBoundary
          rw [if_neg (by omega), hw, hwi]
          rfl
        simp [boundMatch, hbnd]
      · have hbnd : isBoundary (lowerStr text) (i + (strLit ("disease")).length) = false := by
          rw [h7]
          unfold isBoundary
          rw [if_neg (by omega)]
          have h61 : i + 7 - 1 = i + 6 := by omega
          rw [h61, hw6, hw7]
          rfl
        simp [boundMatch, hbnd]
  have hphr : sortLenDesc diseaseIndex.all_known_phrases = [strLit ("disease")] := by decide
  simp only [find_and_define_phrases_in_text_enhanced]
  rw [hphr, List.foldl_cons, List.foldl_nil]
  unfold scanPhrase
  rw [finditer_eq_nil hb]
  rfl

/-- Witness for C5: in `"she was diseased badly."` the only occurrence of
`"disease"` sits inside `"diseased"`, and nothing is reported. -/
theorem word_boundary_whole_word_witness :
    (find_and_define_phrases_in_text_enhanced diseaseIndex
        (strLit ("she was diseased badly."))).found_terms = [] :=
  word_boundary_whole_word (strLit ("she was diseased badly.")) (by decide)

theorem searchParen_mem_paren {s : PyStr} {r : PyStr × PyStr}
    (h : searchParen s = some r) : (40 : Nat) ∈ s := by
  obtain ⟨p, _, hp⟩ := exists_of_scanUp_eq_some h
  obtain ⟨j, _, hj⟩ := exists_of_scanDown_eq_some hp
  have hj' : (if s.get? (j + 1) = some 40 ∧ (s.get? j).any isSpaceCp = true ∧
      p + 1 ≤ j ∧ noNl (pySlice s p j) = true then
        match parenGroup2 s j with
        | some g2 => some (pySlice s p j, g2)
        | none => none
      else none) = some r := hj
  by_cases hc : s.get? (j + 1) = some 40 ∧ (s.get? j).any isSpaceCp = true ∧
      p + 1 ≤ j ∧ noNl (pySlice s p j) = true
  · exact List.get?_mem hc.1
  · rw [if_neg hc] at hj'
    exact absurd hj' (by simp)

theorem lowerCp_of_space {n : Nat} (h : isSpaceCp n = true) : lowerCp n = n := by
  have h' := of_decide_eq_true h
  unfold lowerCp
  rcases h' with h' | h' | h' | h' | h' | h' <;> rw [if_neg (by omega)]

theorem lowerStr_of_spaces {t : PyStr} (h : ∀ c ∈ t, isSpaceCp c = true) :
    lowerStr t = t := by
  induction t with
  | nil => rfl
  | cons c t ih =>
    have hc := lowerCp_of_space (h c (List.mem_cons_self c t))
    have ht := ih (fun c' hc' => h c' (List.mem_cons_of_mem c hc'))
    unfold lowerStr at ht ⊢
    rw [List.map_cons, hc, ht]

/-- C7 (amended): on a term consisting only of whitespace (the empty term
included) `generate_aliases` returns the singleton containing the term itself
unchanged — `{""}` for the empty term but, e.g., `{" "}` (not `{""}`) for a
single space, because `str.lower` does not strip whitespace and the
parenthesis regex cannot match. -/
theorem generate_aliases_blank_term (t : PyStr)
    (h : ∀ c ∈ t, isSpaceCp c = true) : generate_aliases t = [t] := by
  have hlow : lowerStr t = t := lowerStr_of_spaces h
  simp only [generate_aliases, hlow]
  cases hs : searchParen t with
  | none => rfl
  | some r =>
    exfalso
    have h40 := searchParen_mem_paren hs
    exact absurd (h 40 h40) (by decide)

/-- Witness for C7's amended statement at the two-space term. -/
theorem generate_aliases_blank_term_witness :
    generate_aliases (strLit ("  ")) = [strLit ("  ")] :=
  generate_aliases_blank_term (strLit ("  ")) (by decide)

/-- C7 (counterexample to the claim as stated): for the one-space term the
result is `{" "}`, which is not the one-element set `{""}`. -/
theorem generate_aliases_whitespace_counterexample :
    generate_aliases (strLit (" ")) = [strLit (" ")] ∧
    (generate_aliases (strLit (" "))).toFinset ≠ ({([] : PyStr)} : Finset PyStr) :=
  ⟨by decide, by decide⟩

theorem get?_append_prefix (l₁ l₂ : PyStr) (n : Nat) :
    (l₁ ++ l₂).get? (l₁.length + n) = l₂.get? n := by
  rw [List.get?_append_right (Nat.le_add_right _ _)]
  congr 1
  omega

theorem drop_append_prefix (l₁ l₂ : PyStr) (n : Nat) :
    (l₁ ++ l₂).drop (l₁.length + n) = l₂.drop n := by
  induction l₁ with
  | nil => simp
  | cons a l ih =>
    have hn : (a :: l).length + n = (l.length + n) + 1 := by
      simp only [List.length_cons]
      omega
    rw [List.cons_append, hn, List.drop_succ_cons, ih]

theorem get?_append_singleton {l : PyStr} {c x : Nat} {m : Nat}
    (h : (l ++ [c]).get? m = some x) :
    (m < l.length ∧ l.get? m = some x) ∨ (m = l.length ∧ x = c) := by
  rcases Nat.lt_or_ge m l.length with h1 | h1
  · rw [List.get?_append h1] at h
    exact Or.inl ⟨h1, h⟩
  · rw [List.get?_append_right h1] at h
    rcases Nat.eq_zero_or_pos (m - l.length) with h2 | h2
    · rw [h2] at h
      simp only [List.get?_cons_zero, Option.some.injEq] at h
      exact Or.inr ⟨by omega, h.symm⟩
    · obtain ⟨u, hu⟩ : ∃ u, m - l.length = u + 1 := ⟨m - l.length - 1, by omega⟩
      rw [hu] at h
      simp at h

theorem noNl_of_not_mem {l : PyStr} (h : (10 : Nat) ∉ l) : noNl l = true := by
  unfold noNl
  rw [List.all_eq_true]
  intro c hc
  simp only [decide_eq_true_eq]
  exact fun hceq => h (hceq ▸ hc)

theorem searchParen_shaped {main alt : PyStr}
    (hm : main ≠ []) (ha : alt ≠ [])
    (hnlm : (10 : Nat) ∉ main) (hpm : (40 : Nat) ∉ main)
    (hnla : (10 : Nat) ∉ alt) (hpa : (40 : Nat) ∉ alt) (hca : (41 : Nat) ∉ alt) :
    searchParen (main ++ 32 :: 40 :: (alt ++ [41])) = some (main, alt) := by
  set s : PyStr := main ++ 32 :: 40 :: (alt ++ [41]) with hs
  have hM : 0 < main.length := List.length_pos.mpr hm
  have hA : 0 < alt.length := List.length_pos.mpr ha
  have hslen : s.length = main.length + alt.length + 3 := by
    rw [hs]
    simp only [List.length_append, List.length_cons, List.length_nil]
    omega
  have hspace : s.get? main.length = some 32 := by
    have := get?_append_prefix main (32 :: 40 :: (alt ++ [41])) 0
    rw [Nat.add_zero] at this
    exact this
  have hopen : s.get? (main.length + 1) = some 40 :=
    get?_append_prefix main _ 1
  have hclose : s.get? (main.length + 2 + alt.length) = some 41 := by
    have h1 : main.length + 2 + alt.length = main.length + (alt.length + 2) := by omega
    rw [h1, get?_append_prefix main _ (alt.length + 2)]
    show (alt ++ [41]).get? alt.length = some 41
    have h2 := get?_append_prefix alt [41] 0
    rw [Nat.add_zero] at h2
    exact h2
  have honly : ∀ i, s.get? i = some 40 → i = main.length + 1 := by
    intro i hi
    rcases Nat.lt_or_ge i main.length with h1 | h1
    · rw [hs, List.get?_append h1] at hi
      exact absurd (List.get?_mem hi) hpm
    · have h1' : i = main.length + (i - main.length) := by omega
      rw [hs, h1', get?_append_prefix main _ (i - main.length)] at hi
      rcases Nat.lt_or_ge (i - main.length) 2 with h2 | h2
      · have h2' : i - main.length = 0 ∨ i - main.length = 1 := by omega
        rcases h2' with h2' | h2'
        · rw [h2'] at hi
          simp at hi
        · omega
      · obtain ⟨k, hk⟩ : ∃ k, i - main.length = k + 2 := ⟨i - main.length - 2, by omega⟩
        rw [hk] at hi
        have hred : ((32 : Nat) :: 40 :: (alt ++ [41])).get? (k + 2) =
            (alt ++ [41]).get? k := rfl
        rw [hred] at hi
        rcases get?_append_singleton hi with ⟨_, hmem⟩ | ⟨_, hval⟩
        · exact absurd (List.get?_mem hmem) hpa
        · omega
  have hclose_only : ∀ k, main.length + 2 ≤ k → s.get? k = some 41 →
      k = main.length + 2 + alt.length := by
    intro k hk2 hk
    have h1' : k = main.length + ((k - main.length - 2) + 2) := by omega
    rw [hs, h1', get?_append_prefix main _ _] at hk
    have hred : ((32 : Nat) :: 40 :: (alt ++ [41])).get? ((k - main.length - 2) + 2) =
        (alt ++ [41]).get? (k - main.length - 2) := rfl
    rw [hred] at hk
    rcases get?_append_singleton hk with ⟨_, hmem⟩ | ⟨heq, _⟩
    · exact absurd (List.get?_mem hmem) hca
    · omega
  have hslice0 : pySlice s 0 main.length = main := by
    unfold pySlice
    rw [Nat.sub_zero, List.drop_zero, hs, List.take_left]
  have hsliceAlt : pySlice s (main.length + 2) (main.length + 2 + alt.length) = alt := by
    unfold pySlice
    have h1 : main.length + 2 + alt.length - (main.length + 2) = alt.length := by omega
    rw [h1, hs, drop_append_prefix main _ 2]
    show (alt ++ [41]).take alt.length = alt
    exact List.take_left alt [41]
  have hg2 : parenGroup2 s main.length = some alt := by
    unfold parenGroup2
    rw [hslen]
    have hlt : main.length + 2 + alt.length < main.length + alt.length + 3 := by omega
    apply scanDown_eq_of_peak hlt
    · show (if s.get? (main.length + 2 + alt.length) = some 41 ∧
          main.length + 3 ≤ main.length + 2 + alt.length ∧
          noNl (pySlice s (main.length + 2) (main.length + 2 + alt.length)) = true then
            some (pySlice s (main.length + 2) (main.length + 2 + alt.length))
          else none) = some alt
      rw [if_pos ⟨hclose, by omega, by rw [hsliceAlt]; exact noNl_of_not_mem hnla⟩,
        hsliceAlt]
    · intro k' h1 h2
      omega
  have hp0 : parenAt s 0 = some (main, alt) := by
    unfold parenAt
    rw [hslen]
    have hlt : main.length < main.length + alt.length + 3 := by omega
    apply scanDown_eq_of_peak hlt
    · show (if s.get? (main.length + 1) = some 40 ∧
          (s.get? main.length).any isSpaceCp = true ∧ 0 + 1 ≤ main.length ∧
          noNl (pySlice s 0 main.length) = true then
            match parenGroup2 s main.length with
            | some g2 => some (pySlice s 0 main.length, g2)
            | none => none
          else none) = some (main, alt)
      rw [if_pos ⟨hopen, by rw [hspace]; rfl, by omega,
            by rw [hslice0]; exact noNl_of_not_mem hnlm⟩, hg2, hslice0]
    · intro j' h1 h2
      show (if s.get? (j' + 1) = some 40 ∧
          (s.get? j').any isSpaceCp = true ∧ 0 + 1 ≤ j' ∧
          noNl (pySlice s 0 j') = true then
            match parenGroup2 s j' with
            | some g2 => some (pySlice s 0 j', g2)
            | none => none
          else none) = none
      rw [if_neg]
      intro hcond
      have := honly (j' + 1) hcond.1
      omega
  unfold searchParen
  have hpos : 0 < s.length := by omega
  exact scanUp_eq_of_first hpos hp0

/-- C6: `generate_aliases "Pertussis (Whooping Cough)"` is exactly the set
`{"pertussis (whooping cough)", "pertussis", "whooping cough"}`; every term's
alias set contains the lowercased term; and when the lowercased term has the
unambiguous shape `<main> ++ " (" ++ <alt> ++ ")"` (code points 32, 40, 41;
`<main>` nonempty without `'('` or newline, `<alt>` nonempty without
parentheses or newline), the stripped `<main>` and stripped `<alt>` are also
aliases. -/
theorem generate_aliases_paren_extraction :
    ((generate_aliases (strLit ("Pertussis (Whooping Cough)"))).toFinset =
      {strLit ("pertussis (whooping cough)"), strLit ("pertussis"),
       strLit ("whooping cough")}) ∧
    (∀ term : PyStr, lowerStr term ∈ generate_aliases term) ∧
    (∀ (term main alt : PyStr),
        lowerStr term = main ++ 32 :: 40 :: (alt ++ [41]) →
        main ≠ [] → alt ≠ [] →
        (10 : Nat) ∉ main → (40 : Nat) ∉ main →
        (10 : Nat) ∉ alt → (40 : Nat) ∉ alt → (41 : Nat) ∉ alt →
        pyStrip main ∈ generate_aliases term ∧
        pyStrip alt ∈ generate_aliases term) := by
  refine ⟨by decide, ?_, ?_⟩
  · intro term
    simp only [generate_aliases]
    cases searchParen (lowerStr term) with
    | none => exact List.mem_singleton.mpr rfl
    | some r =>
      obtain ⟨g1, g2⟩ := r
      exact mem_insertIfAbsent_of_mem _
        (mem_insertIfAbsent_of_mem _ (List.mem_singleton.mpr rfl))
  · intro term main alt hshape hm ha hnlm hpm hnla hpa hca
    have hsp := searchParen_shaped hm ha hnlm hpm hnla hpa hca
    rw [← hshape] at hsp
    simp only [generate_aliases]
    rw [hsp]
    constructor
    · exact mem_insertIfAbsent_of_mem _ (mem_insertIfAbsent_self _ _)
    · exact mem_insertIfAbsent_self _ _

/-- Witness for C6's parenthesized-shape clause at the Pertussis term. -/
theorem generate_aliases_paren_extraction_witness :
    pyStrip (strLit ("pertussis")) ∈
        generate_aliases (strLit ("Pertussis (Whooping Cough)")) ∧
    pyStrip (strLit ("whooping cough")) ∈
        generate_aliases (strLit ("Pertussis (Whooping Cough)")) :=
  generate_aliases_paren_extraction.2.2 (strLit ("Pertussis (Whooping Cough)"))
    (strLit ("pertussis")) (strLit ("whooping cough")) (by decide) (by decide)
    (by decide) (by decide) (by decide) (by decide) (by decide) (by decide)

theorem matches_of_addToFound {ft : FoundTerm} {d : DefRecord} {mi m : MatchInfo}
    (h : m ∈ (addToFound ft d mi).matches_in_text) :
    m = mi ∨ m ∈ ft.matches_in_text :=
  eq_or_mem_of_mem_insertIfAbsent h

theorem matches_of_updateFound {d : DefRecord} {mi m : MatchInfo} :
    ∀ {found : List (PyStr × FoundTerm)} {kv},
      kv ∈ updateFound found d mi → m ∈ kv.2.matches_in_text →
      m = mi ∨ ∃ kv₀ ∈ found, m ∈ kv₀.2.matches_in_text := by
  intro found
  induction found with
  | nil =>
    intro kv hkv hm
    unfold updateFound at hkv
    rw [List.mem_singleton] at hkv
    subst hkv
    rcases matches_of_addToFound hm with h | h
    · exact Or.inl h
    · simp at h
  | cons kv0 rest ih =>
    obtain ⟨k0, ft0⟩ := kv0
    intro kv hkv hm
    unfold updateFound at hkv
    split at hkv
    · rcases List.mem_cons.1 hkv with hkv' | hkv'
      · subst hkv'
        rcases matches_of_addToFound hm with h | h
        · exact Or.inl h
        · exact Or.inr ⟨(k0, ft0), List.mem_cons_self _ _, h⟩
      · exact Or.inr ⟨kv, List.mem_cons_of_mem _ hkv', hm⟩
    · rcases List.mem_cons.1 hkv with hkv' | hkv'
      · subst hkv'
        exact Or.inr ⟨(k0, ft0), List.mem_cons_self _ _, hm⟩
      · rcases ih hkv' hm with h | ⟨kv₀, hkv₀, hm₀⟩
        · exact Or.inl h
        · exact Or.inr ⟨kv₀, List.mem_cons_of_mem _ hkv₀, hm₀⟩

theorem matches_of_defs_fold {mi : MatchInfo} :
    ∀ (ds : List DefRecord) (found : List (PyStr × FoundTerm)) {kv m},
      kv ∈ ds.foldl (fun f d => updateFound f d mi) found →
      m ∈ kv.2.matches_in_text →
      m = mi ∨ ∃ kv₀ ∈ found, m ∈ kv₀.2.matches_in_text := by
  intro ds
  induction ds with
  | nil =>
    intro found kv m hkv hm
    exact Or.inr ⟨kv, hkv, hm⟩
  | cons d ds ih =>
    intro found kv m hkv hm
    rw [List.foldl_cons] at hkv
    rcases ih (updateFound found d mi) hkv hm with h | ⟨kv₀, hkv₀, hm₀⟩
    · exact Or.inl h
    · rcases matches_of_updateFound hkv₀ hm₀ with h | h
      · exact Or.inl h
      · exact Or.inr h

theorem scan_state_spans (g : GlossaryIndex) (text : PyStr)
    (hne : ∀ p ∈ g.all_known_phrases, p ≠ []) :
    ∀ kv ∈ (List.foldl (scanPhrase g.phrase_index (lowerStr text) text) ⟨[], []⟩
        (sortLenDesc g.all_known_phrases)).found,
      ∀ m ∈ kv.2.matches_in_text,
        ∃ s e, m = ⟨pySlice text s e, s, e⟩ ∧ s < e := by
  apply foldl_preserves
    (P := fun st : ScanState => ∀ kv ∈ st.found, ∀ m ∈ kv.2.matches_in_text,
      ∃ s e, m = ⟨pySlice text s e, s, e⟩ ∧ s < e)
  · intro kv hkv
    simp at hkv
  · intro st p hp hst
    unfold scanPhrase
    apply foldl_preserves
      (P := fun st : ScanState => ∀ kv ∈ st.found, ∀ m ∈ kv.2.matches_in_text,
        ∃ s e, m = ⟨pySlice text s e, s, e⟩ ∧ s < e)
    · exact hst
    · intro st' occ hocc hst'
      obtain ⟨s, e⟩ := occ
      unfold acceptMatch
      split
      · exact hst'
      · intro kv hkv m hm
        obtain ⟨hspan, _⟩ := span_of_mem_findFrom hocc
        have hplen : 0 < p.length :=
          List.length_pos.mpr (hne p (mem_of_mem_sortLenDesc hp))
        rcases matches_of_defs_fold _ _ hkv hm with h | ⟨kv₀, hkv₀, hm₀⟩
        · exact ⟨s, e, h, by omega⟩
        · exact hst' kv₀ hkv₀ m hm₀

/-- C3 (amended): for every text and every index all of whose known phrases
are nonempty, every returned `MatchSpan` satisfies
`lower(text[start:end]) = lower(alias_found)` and `start < end`. -/
theorem span_invariant_nonempty_aliases (g : GlossaryIndex) (text : PyStr)
    (hne : ∀ p ∈ g.all_known_phrases, p ≠ []) :
    ∀ ft ∈ (find_and_define_phrases_in_text_enhanced g text).found_terms,
      ∀ mi ∈ ft.matches_in_text,
        lowerStr (pySlice text mi.location_start mi.location_end) =
          lowerStr mi.alias_found ∧
        mi.location_start < mi.location_end := by
  intro ft hft mi hmi
  simp only [find_and_define_phrases_in_text_enhanced] at hft
  rw [List.mem_map] at hft
  obtain ⟨kv, hkv, hftkv⟩ := hft
  subst hftkv
  obtain ⟨s, e, hmi_eq, hse⟩ := scan_state_spans g text hne kv hkv mi hmi
  subst hmi_eq
  exact ⟨rfl, hse⟩

/-- Witness for C3's amended statement: the `"chronic disease"` span returned
on the C2 text satisfies the invariant. -/
theorem span_invariant_nonempty_aliases_witness :
    lowerStr (pySlice (strLit ("This chronic disease is not just any disease.")) 5 20) =
      lowerStr (strLit ("chronic disease")) ∧ (5 : Nat) < 20 :=
  span_invariant_nonempty_aliases c2Index
    (strLit ("This chronic disease is not just any disease.")) (by decide)
    ⟨strLit ("chronic disease"), [(strLit ("long illness"), strLit ("g"))],
      [⟨strLit ("chronic disease"), 5, 20⟩]⟩ (by decide)
    ⟨strLit ("chronic disease"), 5, 20⟩ (by decide)

/-- C3 (counterexample to the unconditional claim): the index legally built
from the single term `"  (x)"` contains the empty alias; on the text `"a"`
the matcher returns zero-width spans `(0,0)` and `(1,1)`, violating
`location_start < location_end`. -/
theorem span_invariant_counterexample :
    find_and_define_phrases_in_text_enhanced c3BadIndex (strLit ("a")) =
      ⟨1, 1, [⟨strLit ("  (x)"), [(strLit ("y"), strLit ("g"))],
        [⟨[], 0, 0⟩, ⟨[], 1, 1⟩]⟩]⟩ ∧
    ((find_and_define_phrases_in_text_enhanced c3BadIndex (strLit ("a"))).found_terms.map
        (fun ft => ft.matches_in_text.map
          (fun mi => decide (mi.location_start < mi.location_end)))) =
      [[false, false]] :=
  ⟨by decide, by decide⟩

theorem lowerCp_idem (n : Nat) : lowerCp (lowerCp n) = lowerCp n := by
  unfold lowerCp
  by_cases h : 65 ≤ n ∧ n ≤ 90
  · rw [if_pos h, if_neg (by omega)]
  · rw [if_neg h, if_neg h]

theorem mem_lowerStr (c : Nat) (s : PyStr) (h : c ∈ lowerStr s) : lowerCp c = c := by
  unfold lowerStr at h
  obtain ⟨c₀, _, hc⟩ := List.mem_map.1 h
  rw [← hc]
  exact lowerCp_idem c₀

theorem lowerStr_eq_self {s : PyStr} (h : ∀ c ∈ s, lowerCp c = c) :
    lowerStr s = s := by
  induction s with
  | nil => rfl
  | cons c t ih =>
    have hc := h c (List.mem_cons_self c t)
    have ht := ih (fun c' h' => h c' (List.mem_cons_of_mem c h'))
    unfold lowerStr at ht ⊢
    rw [List.map_cons, hc, ht]

theorem lowerStr_idem (t : PyStr) : lowerStr (lowerStr t) = lowerStr t :=
  lowerStr_eq_self (fun c hc => mem_lowerStr c t hc)

theorem mem_of_mem_dropWhile {p : Nat → Bool} {x : Nat} :
    ∀ {l : PyStr}, x ∈ l.dropWhile p → x ∈ l := by
  intro l
  induction l with
  | nil => intro h; exact h
  | cons a t ih =>
    intro h
    rw [List.dropWhile_cons] at h
    split at h
    · exact List.mem_cons_of_mem a (ih h)
    · exact h

theorem mem_of_mem_pyStrip {x : Nat} {s : PyStr} (h : x ∈ pyStrip s) : x ∈ s := by
  unfold pyStrip at h
  rw [List.mem_reverse] at h
  have h1 := mem_of_mem_dropWhile h
  rw [List.mem_reverse] at h1
  exact mem_of_mem_dropWhile h1

theorem mem_of_mem_pySlice {x : Nat} {s : PyStr} {a b : Nat}
    (h : x ∈ pySlice s a b) : x ∈ s := by
  unfold pySlice at h
  exact List.drop_subset a s (List.take_subset _ _ h)

theorem searchParen_slices {s g1 g2 : PyStr}
    (h : searchParen s = some (g1, g2)) :
    (∃ a b, g1 = pySlice s a b) ∧ ∃ a b, g2 = pySlice s a b := by
  obtain ⟨p, _, hp⟩ := exists_of_scanUp_eq_some h
  obtain ⟨j, _, hj⟩ := exists_of_scanDown_eq_some hp
  have hj' : (if s.get? (j + 1) = some 40 ∧ (s.get? j).any isSpaceCp = true ∧
      p + 1 ≤ j ∧ noNl (pySlice s p j) = true then
        match parenGroup2 s j with
        | some g2' => some (pySlice s p j, g2')
        | none => none
      else none) = some (g1, g2) := hj
  split at hj'
  · cases hpg : parenGroup2 s j with
    | none =>
      rw [hpg] at hj'
      simp at hj'
    | some g2' =>
      rw [hpg] at hj'
      have hj2 : some (pySlice s p j, g2') = some (g1, g2) := hj'
      rw [Option.some.injEq, Prod.mk.injEq] at hj2
      obtain ⟨h1, h2⟩ := hj2
      obtain ⟨k, _, hk⟩ := exists_of_scanDown_eq_some hpg
      have hk' : (if s.get? k = some 41 ∧ j + 3 ≤ k ∧
          noNl (pySlice s (j + 2) k) = true then
            some (pySlice s (j + 2) k)
          else none) = some g2' := hk
      split at hk'
      · rw [Option.some.injEq] at hk'
        exact ⟨⟨p, j, h1.symm⟩, ⟨j + 2, k, (h2.symm.trans hk'.symm)⟩⟩
      · simp at hk'
  · simp at hj'

theorem generate_aliases_lower {t : PyStr} :
    ∀ a ∈ generate_aliases t, lowerStr a = a := by
  intro a ha
  simp only [generate_aliases] at ha
  cases hsp : searchParen (lowerStr t) with
  | none =>
    rw [hsp] at ha
    rw [List.mem_singleton] at ha
    subst ha
    exact lowerStr_idem t
  | some r =>
    obtain ⟨g1, g2⟩ := r
    rw [hsp] at ha
    obtain ⟨⟨a1, b1, hg1⟩, ⟨a2, b2, hg2⟩⟩ := searchParen_slices hsp
    have ha' : a ∈ insertIfAbsent (pyStrip g2)
        (insertIfAbsent (pyStrip g1) [lowerStr t]) := ha
    rcases eq_or_mem_of_mem_insertIfAbsent ha' with h | h
    · subst h
      apply lowerStr_eq_self
      intro c hc
      have hc2 := mem_of_mem_pyStrip hc
      rw [hg2] at hc2
      exact mem_lowerStr c t (mem_of_mem_pySlice hc2)
    · rcases eq_or_mem_of_mem_insertIfAbsent h with h' | h'
      · subst h'
        apply lowerStr_eq_self
        intro c hc
        have hc2 := mem_of_mem_pyStrip hc
        rw [hg1] at hc2
        exact mem_lowerStr c t (mem_of_mem_pySlice hc2)
      · rw [List.mem_singleton] at h'
        subst h'
        exact lowerStr_idem t

theorem keys_of_indexAppend {k : PyStr} {d : DefRecord} :
    ∀ {pi : List (PyStr × List DefRecord)} {kv},
      kv ∈ indexAppend pi k d → kv.1 = k ∨ ∃ kv₀ ∈ pi, kv.1 = kv₀.1 := by
  intro pi
  induction pi with
  | nil =>
    intro kv hkv
    unfold indexAppend at hkv
    rw [List.mem_singleton] at hkv
    subst hkv
    exact Or.inl rfl
  | cons kv0 rest ih =>
    obtain ⟨k0, v0⟩ := kv0
    intro kv hkv
    unfold indexAppend at hkv
    split at hkv
    · rcases List.mem_cons.1 hkv with h | h
      · subst h
        exact Or.inr ⟨(k0, v0), List.mem_cons_self _ _, rfl⟩
      · exact Or.inr ⟨kv, List.mem_cons_of_mem _ h, rfl⟩
    · rcases List.mem_cons.1 hkv with h | h
      · subst h
        exact Or.inr ⟨(k0, v0), List.mem_cons_self _ _, rfl⟩
      · rcases ih h with h' | ⟨kv₀, h₀, he⟩
        · exact Or.inl h'
        · exact Or.inr ⟨kv₀, List.mem_cons_of_mem _ h₀, he⟩

theorem keys_of_index_fold {d : DefRecord} :
    ∀ (as : List PyStr) (pi₀ : List (PyStr × List DefRecord)) {kv},
      kv ∈ as.foldl (fun pi a => indexAppend pi a d) pi₀ →
      kv.1 ∈ as ∨ ∃ kv₀ ∈ pi₀, kv.1 = kv₀.1 := by
  intro as
  induction as with
  | nil =>
    intro pi₀ kv hkv
    exact Or.inr ⟨kv, hkv, rfl⟩
  | cons a as ih =>
    intro pi₀ kv hkv
    rw [List.foldl_cons] at hkv
    rcases ih (indexAppend pi₀ a d) hkv with h | ⟨kv₀, h₀, he⟩
    · exact Or.inl (List.mem_cons_of_mem a h)
    · rcases keys_of_indexAppend h₀ with h' | ⟨kv₁, h₁, he'⟩
      · exact Or.inl (by rw [he, h']; exact List.mem_cons_self a as)
      · exact Or.inr ⟨kv₁, h₁, he.trans he'⟩

theorem mem_foldl_insertIfAbsent_of_mem {x : PyStr} :
    ∀ (as : List PyStr) (l : List PyStr), x ∈ l →
      x ∈ as.foldl (fun l' a => insertIfAbsent a l') l := by
  intro as
  induction as with
  | nil => intro l h; exact h
  | cons a as ih =>
    intro l h
    rw [List.foldl_cons]
    exact ih _ (mem_insertIfAbsent_of_mem a h)

theorem mem_foldl_insertIfAbsent_self {x : PyStr} :
    ∀ {as : List PyStr} (l : List PyStr), x ∈ as →
      x ∈ as.foldl (fun l' a => insertIfAbsent a l') l := by
  intro as
  induction as with
  | nil =>
    intro l h
    simp at h
  | cons a as ih =>
    intro l h
    rw [List.foldl_cons]
    rcases List.mem_cons.1 h with h' | h'
    · subst h'
      exact mem_foldl_insertIfAbsent_of_mem as _ (mem_insertIfAbsent_self x l)
    · exact ih _ h'

/-- C9: after the build, every alias key of the phrase index equals its own
lowercasing and belongs to `all_known_phrases`. -/
theorem index_keys_lowercase_and_known (cols : List (PyStr × List RawEntry)) :
    ∀ kv ∈ (load_and_index cols).phrase_index,
      lowerStr kv.1 = kv.1 ∧ kv.1 ∈ (load_and_index cols).all_known_phrases := by
  unfold load_and_index
  apply foldl_preserves
    (P := fun g : GlossaryIndex => ∀ kv ∈ g.phrase_index,
      lowerStr kv.1 = kv.1 ∧ kv.1 ∈ g.all_known_phrases)
  · intro kv hkv
    simp at hkv
  · intro g c hc hg
    apply foldl_preserves
      (P := fun g : GlossaryIndex => ∀ kv ∈ g.phrase_index,
        lowerStr kv.1 = kv.1 ∧ kv.1 ∈ g.all_known_phrases)
    · exact hg
    · intro g' e he hg'
      simp only [addEntry]
      split
      · exact hg'
      · intro kv hkv
        rcases keys_of_index_fold _ _ hkv with h | ⟨kv₀, h₀, he'⟩
        · exact ⟨generate_aliases_lower _ h, mem_foldl_insertIfAbsent_self _ h⟩
        · obtain ⟨hl, hm⟩ := hg' kv₀ h₀
          rw [he']
          exact ⟨hl, mem_foldl_insertIfAbsent_of_mem _ _ hm⟩

/-- Witness for C9 at a one-record build: the key `"ab"` of the index built
from the term `"Ab"` is lowercase and known. -/
theorem index_keys_lowercase_and_known_witness :
    lowerStr (strLit ("ab")) = strLit ("ab") ∧
    strLit ("ab") ∈ (load_and_index
      [(strLit ("g"), [⟨strLit ("Ab"), strLit ("x")⟩])]).all_known_phrases :=
  index_keys_lowercase_and_known [(strLit ("g"), [⟨strLit ("Ab"), strLit ("x")⟩])]
    (strLit ("ab"), [⟨strLit ("Ab"), strLit ("x"), strLit ("g")⟩]) (by decide)
